import Mathlib

/-!
Verification of the tabular-cleaning and bias-analysis pipeline of the
ML-coursework repository (`3_data_cleaning.py` and
`4_distribution_and_bias_analysis.py`).

Columns are modelled as Lean lists: numeric columns as `List ℚ` (the claims
under scrutiny are about exact order comparisons, which rationals model
faithfully), columns that may contain missing entries (`NaN`) as
`List (Option _)`, and categorical columns as `List String`.  Each Lean
definition translates one pandas operation or one function of the source:
where a source function loops over the columns of a frame, the Lean
definition models the loop body on a single column and the frame-level
function maps it over the column list, exactly as the loop does (capping or
encoding one column never reads another).
-/

namespace MLCleaning

/-! ### pandas primitives on lists -/

/-- Model of `Series.unique()` and of `drop_duplicates(keep='first')`:
keep the first occurrence of each value, in first-seen order. `seen` is the
set of values already emitted. -/
def uniqueAux [DecidableEq α] (seen : List α) : List α → List α
  | [] => []
  | x :: xs => if x ∈ seen then uniqueAux (x :: seen) xs else x :: uniqueAux (x :: seen) xs

/-- Model of `Series.unique()`: distinct values in first-seen order. -/
def uniqueList [DecidableEq α] (l : List α) : List α :=
  uniqueAux [] l

/-- Model of `DataFrame.duplicated()`: a boolean mask, `true` exactly on rows
that are an exact copy of an earlier row. -/
def duplicatedFlags [DecidableEq α] (seen : List α) : List α → List Bool
  | [] => []
  | x :: xs => decide (x ∈ seen) :: duplicatedFlags (x :: seen) xs

/-- Keep the entries whose flag is `false` (pandas boolean indexing with the
negated mask). -/
def maskKeep : List α → List Bool → List α
  | [], _ => []
  | x :: xs, [] => x :: xs
  | x :: xs, b :: bs => if b then maskKeep xs bs else x :: maskKeep xs bs

/-- Model of Python `max` over a non-empty iterable (`0` for the empty list,
which the Python code never reaches without raising). -/
def pyMax [LinearOrder α] (dflt : α) (l : List α) : α :=
  match l with
  | [] => dflt
  | x :: xs => xs.foldl max x

/-- Model of Python `min` over a non-empty iterable. -/
def pyMin [LinearOrder α] (dflt : α) (l : List α) : α :=
  match l with
  | [] => dflt
  | x :: xs => xs.foldl min x

/-- Model of Python `enumerate`, emitting `(value, index)` pairs as stored in
the dict comprehension `{val: idx for idx, val in enumerate(vals)}`. -/
def enumerateFrom (k : ℕ) : List α → List (α × ℕ)
  | [] => []
  | x :: xs => (x, k) :: enumerateFrom (k + 1) xs

/-! ### Lemmas about the primitives -/

theorem mem_uniqueAux [DecidableEq α] (a : α) :
    ∀ (seen l : List α), a ∈ uniqueAux seen l ↔ a ∈ l ∧ a ∉ seen := by
  intro seen l
  induction l generalizing seen with
  | nil => simp [uniqueAux]
  | cons x xs ih =>
    by_cases hx : x ∈ seen
    · rw [uniqueAux, if_pos hx, ih]
      simp only [List.mem_cons]
      constructor
      · rintro ⟨hxs, hns⟩
        exact ⟨Or.inr hxs, fun hs => hns (Or.inr hs)⟩
      · rintro ⟨hor, hns⟩
        rcases hor with rfl | hxs
        · exact absurd hx hns
        · refine ⟨hxs, fun hs => ?_⟩
          rcases hs with rfl | hs
          · exact hns hx
          · exact hns hs
    · rw [uniqueAux, if_neg hx, List.mem_cons, ih]
      simp only [List.mem_cons]
      constructor
      · rintro (rfl | ⟨hxs, hns⟩)
        · exact ⟨Or.inl rfl, hx⟩
        · exact ⟨Or.inr hxs, fun hs => hns (Or.inr hs)⟩
      · rintro ⟨hor, hns⟩
        rcases hor with rfl | hxs
        · exact Or.inl rfl
        · by_cases hax : a = x
          · exact Or.inl hax
          · refine Or.inr ⟨hxs, fun hs => ?_⟩
            rcases hs with h | h
            · exact hax h
            · exact hns h

theorem mem_uniqueList [DecidableEq α] (a : α) (l : List α) :
    a ∈ uniqueList l ↔ a ∈ l := by
  simp [uniqueList, mem_uniqueAux]

theorem nodup_uniqueAux [DecidableEq α] :
    ∀ (seen l : List α), (uniqueAux seen l).Nodup := by
  intro seen l
  induction l generalizing seen with
  | nil => simp [uniqueAux]
  | cons x xs ih =>
    by_cases hx : x ∈ seen
    · rw [uniqueAux, if_pos hx]; exact ih _
    · rw [uniqueAux, if_neg hx]
      refine List.nodup_cons.2 ⟨?_, ih _⟩
      intro hmem
      exact ((mem_uniqueAux x _ xs).1 hmem).2 (List.mem_cons_self _ _)

theorem nodup_uniqueList [DecidableEq α] (l : List α) : (uniqueList l).Nodup :=
  nodup_uniqueAux _ _

theorem sublist_uniqueAux [DecidableEq α] :
    ∀ (seen l : List α), (uniqueAux seen l).Sublist l := by
  intro seen l
  induction l generalizing seen with
  | nil => simp [uniqueAux]
  | cons x xs ih =>
    by_cases hx : x ∈ seen
    · rw [uniqueAux, if_pos hx]
      exact (ih _).cons _
    · rw [uniqueAux, if_neg hx]
      exact (ih _).cons₂ _

theorem sublist_uniqueList [DecidableEq α] (l : List α) : (uniqueList l).Sublist l :=
  sublist_uniqueAux _ _

theorem uniqueAux_eq_self [DecidableEq α] :
    ∀ (seen l : List α), l.Nodup → (∀ a ∈ l, a ∉ seen) → uniqueAux seen l = l := by
  intro seen l
  induction l generalizing seen with
  | nil => intro _ _; rfl
  | cons x xs ih =>
    intro hnd hdisj
    rw [uniqueAux, if_neg (hdisj x (List.mem_cons_self _ _))]
    congr 1
    refine ih _ (List.nodup_cons.1 hnd).2 ?_
    intro a ha
    intro hmem
    rcases List.mem_cons.1 hmem with rfl | hmem'
    · exact (List.nodup_cons.1 hnd).1 ha
    · exact hdisj a (List.mem_cons_of_mem _ ha) hmem'

theorem uniqueList_eq_self [DecidableEq α] (l : List α) (h : l.Nodup) :
    uniqueList l = l :=
  uniqueAux_eq_self _ _ h (by simp)

theorem maskKeep_duplicatedFlags [DecidableEq α] :
    ∀ (seen l : List α), maskKeep l (duplicatedFlags seen l) = uniqueAux seen l := by
  intro seen l
  induction l generalizing seen with
  | nil => rfl
  | cons x xs ih =>
    by_cases hx : x ∈ seen
    · rw [duplicatedFlags, uniqueAux, if_pos hx, maskKeep, if_pos (by simpa using hx)]
      exact ih _
    · rw [duplicatedFlags, uniqueAux, if_neg hx, maskKeep, if_neg (by simpa using hx)]
      rw [ih]

theorem length_uniqueAux_add_count [DecidableEq α] :
    ∀ (seen l : List α),
      (uniqueAux seen l).length + (duplicatedFlags seen l).count true = l.length := by
  intro seen l
  induction l generalizing seen with
  | nil => rfl
  | cons x xs ih =>
    by_cases hx : x ∈ seen
    · rw [uniqueAux, if_pos hx, duplicatedFlags, decide_eq_true hx,
        List.count_cons_self, List.length_cons]
      have := ih (x :: seen)
      omega
    · rw [uniqueAux, if_neg hx, duplicatedFlags, decide_eq_false hx,
        List.count_cons_of_ne (by simp), List.length_cons, List.length_cons]
      have := ih (x :: seen)
      omega

theorem count_duplicatedFlags_eq_zero [DecidableEq α] :
    ∀ (seen l : List α), (duplicatedFlags seen l).count true = 0 →
      uniqueAux seen l = l := by
  intro seen l
  induction l generalizing seen with
  | nil => intro _; rfl
  | cons x xs ih =>
    intro h
    rw [duplicatedFlags] at h
    by_cases hx : x ∈ seen
    · rw [decide_eq_true hx, List.count_cons_self] at h
      omega
    · rw [decide_eq_false hx, List.count_cons_of_ne (by simp)] at h
      rw [uniqueAux, if_neg hx, ih _ h]

theorem foldl_max_eq_or_mem [LinearOrder α] :
    ∀ (l : List α) (a : α), l.foldl max a = a ∨ l.foldl max a ∈ l := by
  intro l
  induction l with
  | nil => intro a; exact Or.inl rfl
  | cons x xs ih =>
    intro a
    rcases ih (max a x) with h | h
    · rw [List.foldl_cons, h]
      rcases max_choice a x with h' | h'
      · exact Or.inl h'
      · exact Or.inr (by rw [h']; exact List.mem_cons_self _ _)
    · exact Or.inr (List.mem_cons_of_mem _ (by rw [List.foldl_cons]; exact h))

theorem le_foldl_max [LinearOrder α] :
    ∀ (l : List α) (a : α), a ≤ l.foldl max a := by
  intro l
  induction l with
  | nil => intro a; exact le_refl a
  | cons x xs ih =>
    intro a
    rw [List.foldl_cons]
    exact le_trans (le_max_left a x) (ih (max a x))

theorem mem_le_foldl_max [LinearOrder α] :
    ∀ (l : List α) (a : α), ∀ y ∈ l, y ≤ l.foldl max a := by
  intro l
  induction l with
  | nil => intro a y hy; simp at hy
  | cons x xs ih =>
    intro a y hy
    rw [List.foldl_cons]
    rcases List.mem_cons.1 hy with rfl | hy'
    · exact le_trans (le_max_right a y) (le_foldl_max xs (max a y))
    · exact ih (max a x) y hy'

theorem foldl_min_eq_or_mem [LinearOrder α] :
    ∀ (l : List α) (a : α), l.foldl min a = a ∨ l.foldl min a ∈ l := by
  intro l
  induction l with
  | nil => intro a; exact Or.inl rfl
  | cons x xs ih =>
    intro a
    rcases ih (min a x) with h | h
    · rw [List.foldl_cons, h]
      rcases min_choice a x with h' | h'
      · exact Or.inl h'
      · exact Or.inr (by rw [h']; exact List.mem_cons_self _ _)
    · exact Or.inr (List.mem_cons_of_mem _ (by rw [List.foldl_cons]; exact h))

theorem foldl_min_le [LinearOrder α] :
    ∀ (l : List α) (a : α), l.foldl min a ≤ a := by
  intro l
  induction l with
  | nil => intro a; exact le_refl a
  | cons x xs ih =>
    intro a
    rw [List.foldl_cons]
    exact le_trans (ih (min a x)) (min_le_left a x)

theorem foldl_min_le_mem [LinearOrder α] :
    ∀ (l : List α) (a : α), ∀ y ∈ l, l.foldl min a ≤ y := by
  intro l
  induction l with
  | nil => intro a y hy; simp at hy
  | cons x xs ih =>
    intro a y hy
    rw [List.foldl_cons]
    rcases List.mem_cons.1 hy with rfl | hy'
    · exact le_trans (foldl_min_le xs (min a y)) (min_le_right a y)
    · exact ih (min a x) y hy'

theorem pyMax_mem [LinearOrder α] (dflt : α) (l : List α) (h : l ≠ []) :
    pyMax dflt l ∈ l := by
  match l with
  | [] => exact absurd rfl h
  | x :: xs =>
    rcases foldl_max_eq_or_mem xs x with h' | h'
    · rw [pyMax, h']; exact List.mem_cons_self _ _
    · exact List.mem_cons_of_mem _ h'

theorem le_pyMax [LinearOrder α] (dflt : α) (l : List α) (y : α) (hy : y ∈ l) :
    y ≤ pyMax dflt l := by
  match l with
  | [] => simp at hy
  | x :: xs =>
    rcases List.mem_cons.1 hy with rfl | hy'
    · exact le_foldl_max xs y
    · exact mem_le_foldl_max xs x y hy'

theorem pyMin_mem [LinearOrder α] (dflt : α) (l : List α) (h : l ≠ []) :
    pyMin dflt l ∈ l := by
  match l with
  | [] => exact absurd rfl h
  | x :: xs =>
    rcases foldl_min_eq_or_mem xs x with h' | h'
    · rw [pyMin, h']; exact List.mem_cons_self _ _
    · exact List.mem_cons_of_mem _ h'

theorem pyMin_le [LinearOrder α] (dflt : α) (l : List α) (y : α) (hy : y ∈ l) :
    pyMin dflt l ≤ y := by
  match l with
  | [] => simp at hy
  | x :: xs =>
    rcases List.mem_cons.1 hy with rfl | hy'
    · exact foldl_min_le xs y
    · exact foldl_min_le_mem xs x y hy'

/-! ### Quantiles and the IQR outlier engine (`detect_outliers_iqr`, `handle_outliers`) -/

/-- A numeric column sorted ascending, as pandas `quantile` does internally. -/
def sortColumn (xs : List ℚ) : List ℚ :=
  List.insertionSort (· ≤ ·) xs

/-- Linear interpolation at fractional position `h` into the sorted list `s`:
the value `s[⌊h⌋] + (h - ⌊h⌋) * (s[⌊h⌋ + 1] - s[⌊h⌋])` used by pandas'
default `interpolation='linear'` (when `h` is integral the second index is
never read, which the default of `getD` reflects). -/
def interpAt (s : List ℚ) (h : ℚ) : ℚ :=
  s.getD (⌊h⌋).toNat 0 +
    (h - ((⌊h⌋).toNat : ℚ)) *
      (s.getD ((⌊h⌋).toNat + 1) (s.getD (⌊h⌋).toNat 0) - s.getD (⌊h⌋).toNat 0)

/-- Model of `Series.quantile(q)` with linear interpolation: position
`q * (n - 1)` into the sorted values. -/
def quantile (q : ℚ) (xs : List ℚ) : ℚ :=
  if xs.length = 0 then 0
  else interpAt (sortColumn xs) (q * ((xs.length : ℚ) - 1))

/-- Model of `detect_outliers_iqr`: `Q1 = quantile(0.25)`, `Q3 = quantile(0.75)`,
`IQR = Q3 - Q1`, bounds `(Q1 - 1.5*IQR, Q3 + 1.5*IQR)`. -/
def iqrBounds (xs : List ℚ) : ℚ × ℚ :=
  let q1 := quantile (1/4) xs
  let q3 := quantile (3/4) xs
  let iqr := q3 - q1
  (q1 - 3/2 * iqr, q3 + 3/2 * iqr)

/-- Model of the boolean outlier series of `detect_outliers_iqr`:
`(value < lower_bound) | (value > upper_bound)`. -/
def isOutlier (xs : List ℚ) (v : ℚ) : Bool :=
  let b := iqrBounds xs
  decide (v < b.1) || decide (v > b.2)

/-- Model of the `cap` branch of `handle_outliers` on one column: first every
value below the lower bound is set to it, then every value above the upper
bound is set to it (the two `.loc` assignments, in source order). -/
def capColumn (xs : List ℚ) : List ℚ :=
  let b := iqrBounds xs
  (xs.map (fun v => if v < b.1 then b.1 else v)).map
    (fun v => if v > b.2 then b.2 else v)

/-- Row mask of the `remove` branch: a row is marked when any column holds an
outlier at that row index. The table is a list of equally long numeric
columns. -/
def outlierRowMask (t : List (List ℚ)) : List Bool :=
  (List.range (t.headD []).length).map
    (fun i => t.any (fun c => isOutlier c (c.getD i 0)))

/-- Model of the `remove` branch of `handle_outliers`: drop every row whose
mask entry is set, in each column. -/
def removeOutlierRows (t : List (List ℚ)) : List (List ℚ) :=
  let mask := outlierRowMask t
  t.map (fun c => maskKeep c mask)

/-- Model of `handle_outliers(df, method)`: the per-column loop caps each
numeric column only when `method == 'cap'`; afterwards rows are dropped only
when `method == 'remove'`; any other method name leaves the copied table
untouched. -/
def handleOutliers (method : String) (t : List (List ℚ)) : List (List ℚ) :=
  let capped := if method = "cap" then t.map capColumn else t
  if method = "remove" then removeOutlierRows capped else capped

/-! ### Monotonicity of linear-interpolation quantiles -/

theorem getD_le_getD_of_sorted {s : List ℚ} (hs : s.Sorted (· ≤ ·))
    {a b : ℕ} (hab : a ≤ b) (hb : b < s.length) :
    s.getD a 0 ≤ s.getD b 0 := by
  have ha : a < s.length := lt_of_le_of_lt hab hb
  rw [List.getD_eq_getElem s 0 ha, List.getD_eq_getElem s 0 hb]
  have h2 : s.get ⟨a, ha⟩ ≤ s.get ⟨b, hb⟩ :=
    hs.rel_get_of_le (Fin.mk_le_mk.2 hab)
  simpa using h2

theorem getD_succ_pair_le {s : List ℚ} (hs : s.Sorted (· ≤ ·)) (i : ℕ) :
    s.getD i 0 ≤ s.getD (i + 1) (s.getD i 0) := by
  by_cases h : i + 1 < s.length
  · have hi : i < s.length := Nat.lt_of_succ_lt h
    rw [List.getD_eq_getElem s _ h, List.getD_eq_getElem s 0 hi]
    have h2 : s.get ⟨i, hi⟩ ≤ s.get ⟨i + 1, h⟩ :=
      hs.rel_get_of_le (Fin.mk_le_mk.2 (Nat.le_succ i))
    simpa using h2
  · rw [List.getD_eq_default s _ (Nat.le_of_not_lt h)]

theorem floor_pos_le {h : ℚ} (h0 : 0 ≤ h) : ((⌊h⌋.toNat : ℚ)) ≤ h := by
  have hf : (0 : ℤ) ≤ ⌊h⌋ := Int.floor_nonneg.2 h0
  have heq : ((⌊h⌋.toNat : ℚ)) = ((⌊h⌋ : ℤ) : ℚ) := by
    exact_mod_cast Int.toNat_of_nonneg hf
  rw [heq]
  exact Int.floor_le h

theorem lt_floor_pos_add_one {h : ℚ} (h0 : 0 ≤ h) : h < (⌊h⌋.toNat : ℚ) + 1 := by
  have hf : (0 : ℤ) ≤ ⌊h⌋ := Int.floor_nonneg.2 h0
  have heq : ((⌊h⌋.toNat : ℚ)) = ((⌊h⌋ : ℤ) : ℚ) := by
    exact_mod_cast Int.toNat_of_nonneg hf
  rw [heq]
  exact Int.lt_floor_add_one h

theorem interpAt_between {s : List ℚ} (hs : s.Sorted (· ≤ ·)) {h : ℚ}
    (h0 : 0 ≤ h) :
    s.getD (⌊h⌋).toNat 0 ≤ interpAt s h ∧
      interpAt s h ≤ s.getD ((⌊h⌋).toNat + 1) (s.getD (⌊h⌋).toNat 0) := by
  have hfl := floor_pos_le h0
  have hfu := lt_floor_pos_add_one h0
  have hlohi := getD_succ_pair_le hs (⌊h⌋).toNat
  unfold interpAt
  constructor
  · nlinarith [mul_nonneg (by linarith : (0:ℚ) ≤ h - ((⌊h⌋).toNat : ℚ))
      (by linarith : (0:ℚ) ≤ s.getD ((⌊h⌋).toNat + 1) (s.getD (⌊h⌋).toNat 0) - s.getD (⌊h⌋).toNat 0)]
  · nlinarith [mul_nonneg (by linarith : (0:ℚ) ≤ 1 - (h - ((⌊h⌋).toNat : ℚ)))
      (by linarith : (0:ℚ) ≤ s.getD ((⌊h⌋).toNat + 1) (s.getD (⌊h⌋).toNat 0) - s.getD (⌊h⌋).toNat 0)]

theorem interpAt_mono {s : List ℚ} (hs : s.Sorted (· ≤ ·)) {h h' : ℚ}
    (h0 : 0 ≤ h) (hhh : h ≤ h') (hn : h' ≤ (s.length : ℚ) - 1) :
    interpAt s h ≤ interpAt s h' := by
  have h0' : 0 ≤ h' := le_trans h0 hhh
  have hii' : (⌊h⌋).toNat ≤ (⌊h'⌋).toNat :=
    Int.toNat_le_toNat (Int.floor_le_floor hhh)
  have hi'n : (⌊h'⌋).toNat < s.length := by
    have h1 : (((⌊h'⌋).toNat : ℚ)) ≤ h' := floor_pos_le h0'
    have h3 : (((⌊h'⌋).toNat : ℚ)) + 1 ≤ (s.length : ℚ) := by linarith
    have h4 : ((⌊h'⌋).toNat + 1 : ℕ) ≤ s.length := by exact_mod_cast h3
    omega
  rcases Nat.lt_or_ge (⌊h⌋).toNat (⌊h'⌋).toNat with hlt | hge
  · -- different segments: pass through the endpoints
    have hub := (interpAt_between hs h0).2
    have hlb := (interpAt_between hs h0').1
    have hstep : s.getD ((⌊h⌋).toNat + 1) (s.getD (⌊h⌋).toNat 0) ≤
        s.getD (⌊h'⌋).toNat 0 := by
      have hin : (⌊h⌋).toNat + 1 < s.length := lt_of_le_of_lt hlt hi'n
      have heqd : s.getD ((⌊h⌋).toNat + 1) (s.getD (⌊h⌋).toNat 0) =
          s.getD ((⌊h⌋).toNat + 1) 0 := by
        rw [List.getD_eq_getElem s _ hin, List.getD_eq_getElem s 0 hin]
      rw [heqd]
      exact getD_le_getD_of_sorted hs hlt hi'n
    calc interpAt s h ≤ s.getD ((⌊h⌋).toNat + 1) (s.getD (⌊h⌋).toNat 0) := hub
      _ ≤ s.getD (⌊h'⌋).toNat 0 := hstep
      _ ≤ interpAt s h' := hlb
  · -- same segment
    have hieq : (⌊h'⌋).toNat = (⌊h⌋).toNat := le_antisymm hge hii'
    have hlohi := getD_succ_pair_le hs (⌊h⌋).toNat
    unfold interpAt
    rw [hieq]
    nlinarith [mul_nonneg (by linarith : (0:ℚ) ≤ h' - h)
      (by linarith : (0:ℚ) ≤ s.getD ((⌊h⌋).toNat + 1) (s.getD (⌊h⌋).toNat 0) - s.getD (⌊h⌋).toNat 0)]

theorem quantile_mono (xs : List ℚ) {q q' : ℚ} (h0 : 0 ≤ q) (hq : q ≤ q')
    (h1 : q' ≤ 1) : quantile q xs ≤ quantile q' xs := by
  unfold quantile
  by_cases hlen : xs.length = 0
  · simp [hlen]
  · rw [if_neg hlen, if_neg hlen]
    have hs : (sortColumn xs).Sorted (· ≤ ·) :=
      List.sorted_insertionSort (· ≤ ·) xs
    have hlen1 : 1 ≤ (xs.length : ℚ) := by
      have : 1 ≤ xs.length := Nat.one_le_iff_ne_zero.2 hlen
      exact_mod_cast this
    have hslen : ((sortColumn xs).length : ℚ) = (xs.length : ℚ) := by
      exact_mod_cast List.length_insertionSort (· ≤ ·) xs
    apply interpAt_mono hs
    · exact mul_nonneg h0 (by linarith)
    · exact mul_le_mul_of_nonneg_right hq (by linarith)
    · rw [hslen]
      nlinarith

theorem iqrBounds_le (xs : List ℚ) : (iqrBounds xs).1 ≤ (iqrBounds xs).2 := by
  have h : quantile (1/4) xs ≤ quantile (3/4) xs :=
    quantile_mono xs (by norm_num) (by norm_num) (by norm_num)
  unfold iqrBounds
  dsimp only
  linarith

theorem capColumn_mem_bounds {c : List ℚ} {v : ℚ} (hv : v ∈ capColumn c) :
    (iqrBounds c).1 ≤ v ∧ v ≤ (iqrBounds c).2 := by
  have hb := iqrBounds_le c
  unfold capColumn at hv
  rcases List.mem_map.1 hv with ⟨w, hw, hvw⟩
  rcases List.mem_map.1 hw with ⟨u, _, hwu⟩
  subst hvw
  subst hwu
  constructor
  · by_cases h1 : u < (iqrBounds c).1
    · rw [if_pos h1]
      by_cases h2 : (iqrBounds c).1 > (iqrBounds c).2
      · rw [if_pos h2]; exact hb
      · rw [if_neg h2]
    · rw [if_neg h1]
      push_neg at h1
      by_cases h2 : u > (iqrBounds c).2
      · rw [if_pos h2]; exact hb
      · rw [if_neg h2]; exact h1
  · by_cases h1 : u < (iqrBounds c).1
    · rw [if_pos h1]
      by_cases h2 : (iqrBounds c).1 > (iqrBounds c).2
      · rw [if_pos h2]
      · rw [if_neg h2]; push_neg at h2; exact h2
    · rw [if_neg h1]
      by_cases h2 : u > (iqrBounds c).2
      · rw [if_pos h2]
      · rw [if_neg h2]; push_neg at h2; exact h2

/-! ### Missing-value imputation (`handle_missing_values`) -/

/-- Model of `Series.median()` (pandas drops `NaN` before computing; on an
empty series the result is `NaN`, modelled as `none`): sort, take the middle
element for odd length, the mean of the two middle elements for even
length. -/
def pandasMedian (xs : List ℚ) : Option ℚ :=
  let s := sortColumn xs
  if s.length = 0 then none
  else if s.length % 2 = 1 then some (s.getD (s.length / 2) 0)
  else some ((s.getD (s.length / 2 - 1) 0 + s.getD (s.length / 2) 0) / 2)

/-- Model of the numeric-column branch of `handle_missing_values`: when the
column has missing entries, `fillna` with the column's median (a median of an
all-missing column is `NaN`, so such a column is left unchanged). -/
def imputeNumericColumn (xs : List (Option ℚ)) : List (Option ℚ) :=
  if xs.any (fun x => x.isNone) then
    let m := pandasMedian (xs.filterMap id)
    xs.map (fun x => match x with | some v => some v | none => m)
  else xs

/-- Model of `Series.mode()` (pandas drops `NaN`, then returns every value of
maximal frequency, sorted ascending). -/
def pandasMode (xs : List String) : List String :=
  List.insertionSort (· ≤ ·)
    ((uniqueList xs).filter
      (fun v => xs.count v == pyMax 0 ((uniqueList xs).map (fun w => xs.count w))))

/-- Model of the categorical-column branch of `handle_missing_values`: when
the column has missing entries, `fillna` with `mode()[0]`; indexing the empty
mode of an all-missing column raises (modelled as `none`). -/
def imputeCategoricalColumn (xs : List (Option String)) : Option (List (Option String)) :=
  if xs.any (fun x => x.isNone) then
    match (pandasMode (xs.filterMap id)).head? with
    | none => none
    | some m => some (xs.map (fun x => match x with | some v => some v | none => some m))
  else some xs

/-! ### Duplicate removal (`remove_duplicates`) -/

/-- Model of `remove_duplicates`: count the rows flagged by `duplicated()`;
if none, return the table as is, otherwise `drop_duplicates(keep='first')`,
i.e. keep exactly the rows whose flag is off. -/
def removeDuplicates [DecidableEq α] (rows : List α) : List α :=
  let flags := duplicatedFlags [] rows
  if flags.count true = 0 then rows else maskKeep rows flags

/-! ### Categorical encoding (`encode_categorical_variables`) -/

/-- Result of encoding one categorical column: either the column is replaced
in place by integer codes together with the recorded mapping, or it is
replaced by one-hot indicator columns (name, 0/1 values). -/
inductive EncodedColumn where
  | mapped (mapping : List (String × ℕ)) (values : List (Option ℕ))
  | oneHot (newColumns : List (String × List ℕ))
deriving DecidableEq

/-- Model of `{val: idx for idx, val in enumerate(df[col].unique())}`: the
distinct values in first-seen order paired with successive codes from 0. -/
def mkMapping (xs : List String) : List (String × ℕ) :=
  enumerateFrom 0 (uniqueList xs)

/-- Model of `df[col].map(mapping)`: dictionary lookup, `NaN` (`none`) when a
value is not a key of the mapping. -/
def applyMapping (mapping : List (String × ℕ)) (xs : List String) : List (Option ℕ) :=
  xs.map (fun x => List.lookup x mapping)

/-- Model of the per-column body of `encode_categorical_variables`, selected
by `nunique()`:
* 2 distinct values: binary encoding, `{unique_vals[0]: 0, unique_vals[1]: 1}`
  (for two values this dict is exactly the `enumerate` dict);
* at most 10: label encoding with the `enumerate` dict;
* more than 10: `pd.get_dummies(col, prefix=col, drop_first=True)`, which
  makes an indicator column named `col_value` for every distinct value except
  the first in sorted order, then the original column is dropped. -/
def encodeColumn (name : String) (xs : List String) : EncodedColumn :=
  if (uniqueList xs).length = 2 then
    .mapped (mkMapping xs) (applyMapping (mkMapping xs) xs)
  else if (uniqueList xs).length ≤ 10 then
    .mapped (mkMapping xs) (applyMapping (mkMapping xs) xs)
  else
    .oneHot (((List.insertionSort (· ≤ ·) (uniqueList xs)).drop 1).map
      (fun v => (name ++ "_" ++ v, xs.map (fun x => if x == v then 1 else 0))))

/-! ### Feature scaling (`scale_features`) -/

/-- Recorded scaling parameters for one column (`scaling_params[col]`). -/
inductive ScalingEntry where
  | standardize (mean std : ℚ)
  | normalize (lo hi : ℚ)
deriving DecidableEq

/-- Model of `Series.mean()`. -/
def listMean (xs : List ℚ) : ℚ :=
  xs.sum / (xs.length : ℚ)

/-- Model of `scale_features(df, method)`. The per-column loop applies
z-score standardization when `method == 'standardize'`, min-max normalization
when `method == 'normalize'`, and records the parameters used; any other
method name leaves every column untouched and records nothing. The sample
standard deviation `Series.std()` involves a square root, which has no exact
rational value, so it is passed in as an abstract function `stdFn`; no claim
in scope depends on its value. -/
def scaleFeatures (stdFn : List ℚ → ℚ) (method : String) (t : List (List ℚ)) :
    List (List ℚ) × List ScalingEntry :=
  if method = "standardize" then
    (t.map (fun xs => xs.map (fun v => (v - listMean xs) / stdFn xs)),
     t.map (fun xs => .standardize (listMean xs) (stdFn xs)))
  else if method = "normalize" then
    (t.map (fun xs => xs.map (fun v => (v - pyMin 0 xs) / (pyMax 0 xs - pyMin 0 xs))),
     t.map (fun xs => .normalize (pyMin 0 xs) (pyMax 0 xs)))
  else (t, [])

/-! ### Target balance and categorical bias
(`analyze_target_balance`, `analyze_categorical_bias`) -/

/-- The hard-coded target column of the analysis script. -/
def targetColName : String := "loan_approval_status"

/-- Result of `analyze_target_balance` stored in
`results['class_balance']`. -/
structure BalanceResult where
  classCounts : List (String × ℕ)
  imbalance : ℚ
  imbalanced : Bool
deriving DecidableEq

/-- Model of `value_counts()` of the target column: each distinct value with
its number of occurrences. `value_counts` lists them by descending count;
only the maximum and minimum of the counts are consumed, so the distinct
values are kept in first-seen order here. -/
def classCountsOf (target : List String) : List (String × ℕ) :=
  (uniqueList target).map (fun v => (v, target.count v))

/-- Model of `analyze_target_balance` on the target column's values:
`value_counts`, then `imbalance_ratio = max count / min count`, flagged when
it exceeds 1.5. -/
def analyzeTargetBalance (target : List String) : BalanceResult :=
  ⟨classCountsOf target,
   ((pyMax 0 ((classCountsOf target).map Prod.snd) : ℕ) : ℚ) /
     ((pyMin 0 ((classCountsOf target).map Prod.snd) : ℕ) : ℚ),
   decide (((pyMax 0 ((classCountsOf target).map Prod.snd) : ℕ) : ℚ) /
     ((pyMin 0 ((classCountsOf target).map Prod.snd) : ℕ) : ℚ) > 3/2)⟩

/-- Per-feature record stored in `results['bias_analysis'][col]`. -/
structure BiasResult where
  approvalRates : List (String × ℚ)
  biasDifference : ℚ
  biasDetected : Bool
deriving DecidableEq

/-- Model of `approval_col = 'Approved' if 'Approved' in crosstab.columns
else crosstab.columns[0]`: the crosstab columns are the sorted distinct
target values. -/
def approvalLabel (target : List String) : String :=
  if "Approved" ∈ List.insertionSort (· ≤ ·) (uniqueList target) then "Approved"
  else (List.insertionSort (· ≤ ·) (uniqueList target)).headD ""

/-- Model of the row-normalized crosstab, times 100, read off at the approval
column: for each category (crosstab index: sorted distinct feature values)
the percentage of its rows whose target is the approval label. -/
def approvalRatesOf (cat target : List String) : List (String × ℚ) :=
  (List.insertionSort (· ≤ ·) (uniqueList cat)).map (fun c =>
    (c, 100 * (((cat.zip target).filter
          (fun p => p.1 == c && p.2 == approvalLabel target)).length : ℚ) /
        (cat.count c : ℚ)))

/-- Model of the per-feature body of `analyze_categorical_bias` (reached only
when the target column exists): the bias difference is the max minus the min
of the per-category approval rates, flagged when it exceeds 15. On a table
with no rows the crosstab is empty and `crosstab.columns[0]` raises,
modelled as `none`. -/
def analyzeCategoricalBias (cat target : List String) : Option BiasResult :=
  if cat = [] ∨ target = [] then none
  else
    some ⟨approvalRatesOf cat target,
          pyMax 0 ((approvalRatesOf cat target).map Prod.snd) -
            pyMin 0 ((approvalRatesOf cat target).map Prod.snd),
          decide (pyMax 0 ((approvalRatesOf cat target).map Prod.snd) -
            pyMin 0 ((approvalRatesOf cat target).map Prod.snd) > 15)⟩

/-! ### The analysis run (`run_analysis`) -/

/-- Model of `_plot_categorical_bias`: for every feature column it indexes
the frame at the target column, raising `KeyError` (modelled `none`) when the
target column is absent and at least one categorical feature exists. -/
def plotCategoricalBias (t : List (String × List String)) (cats : List String) :
    Option Unit :=
  match cats with
  | [] => some ()
  | _ :: _ => if (List.lookup targetColName t).isSome then some () else none

/-- Model of `_create_report_content`: it reads
`results['class_balance']` unconditionally, raising `KeyError` (modelled
`none`) when `analyze_target_balance` skipped without storing it. -/
def createReportContent (classBalance : Option BalanceResult)
    (biasAnalysis : List (String × Option BiasResult)) :
    Option (BalanceResult × List (String × Option BiasResult)) :=
  match classBalance with
  | none => none
  | some cb => some (cb, biasAnalysis)

/-- Model of `run_analysis` on a frame of categorical columns:
`analyze_target_balance` stores `results['class_balance']` only when the
target column exists (else it prints a named failure and returns);
`analyze_categorical_bias` computes per-feature bias only under its own
target-presence guard, then calls `_plot_categorical_bias`; finally
`generate_report` renders `_create_report_content`. `none` models an
uncaught exception ending the run. -/
def runAnalysis (t : List (String × List String)) :
    Option (BalanceResult × List (String × Option BiasResult)) :=
  let classBalance := (List.lookup targetColName t).map analyzeTargetBalance
  let cats := (t.map Prod.fst).filter (fun n => n != targetColName)
  let biasAnalysis : List (String × Option BiasResult) :=
    match List.lookup targetColName t with
    | some tgt => cats.map (fun c =>
        (c, (List.lookup c t).bind (fun col => analyzeCategoricalBias col tgt)))
    | none => []
  match plotCategoricalBias t cats with
  | none => none
  | some _ => createReportContent classBalance biasAnalysis

/-! ### Further supporting lemmas -/

theorem uniqueList_ne_nil [DecidableEq α] {l : List α} (h : l ≠ []) :
    uniqueList l ≠ [] := by
  obtain ⟨x, xs, rfl⟩ := List.exists_cons_of_ne_nil h
  intro hu
  have hx : x ∈ uniqueList (x :: xs) :=
    (mem_uniqueList _ _).2 (List.mem_cons_self _ _)
  rw [hu] at hx
  simp at hx

theorem enumerateFrom_map_fst (k : ℕ) :
    ∀ l : List α, (enumerateFrom k l).map Prod.fst = l := by
  intro l
  induction l generalizing k with
  | nil => rfl
  | cons x xs ih => rw [enumerateFrom, List.map_cons, ih]

theorem enumerateFrom_map_snd (k : ℕ) :
    ∀ l : List α, (enumerateFrom k l).map Prod.snd = List.range' k l.length := by
  intro l
  induction l generalizing k with
  | nil => rfl
  | cons x xs ih =>
    rw [enumerateFrom, List.map_cons, ih, List.length_cons, List.range'_succ]

theorem lookup_enumerateFrom_isSome (k : ℕ) (l : List String) (a : String)
    (ha : a ∈ l) : (List.lookup a (enumerateFrom k l)).isSome := by
  induction l generalizing k with
  | nil => simp at ha
  | cons x xs ih =>
    by_cases hax : a = x
    · subst hax
      simp [enumerateFrom, List.lookup]
    · have hb : (a == x) = false := beq_eq_false_iff_ne.2 hax
      have ha' : a ∈ xs := by
        rcases List.mem_cons.1 ha with h | h
        · exact absurd h hax
        · exact h
      rw [enumerateFrom, List.lookup, hb]
      exact ih (k + 1) ha'

theorem pyMax_eq_of_ub [LinearOrder α] (dflt : α) {l : List α} {a : α}
    (ha : a ∈ l) (hub : ∀ y ∈ l, y ≤ a) : pyMax dflt l = a :=
  le_antisymm (hub _ (pyMax_mem dflt l (List.ne_nil_of_mem ha)))
    (le_pyMax dflt l a ha)

theorem pyMin_eq_of_lb [LinearOrder α] (dflt : α) {l : List α} {a : α}
    (ha : a ∈ l) (hlb : ∀ y ∈ l, a ≤ y) : pyMin dflt l = a :=
  le_antisymm (pyMin_le dflt l a ha)
    (hlb _ (pyMin_mem dflt l (List.ne_nil_of_mem ha)))

/-- A property of the extreme second components of a non-empty pair list holds
exactly when it holds of some pair of elements that bound all the others. -/
theorem pyMaxMin_iff [LinearOrder γ] (dflt : γ) (R : List (β × γ)) (hR : R ≠ [])
    (P : γ → γ → Prop) :
    P (pyMax dflt (R.map Prod.snd)) (pyMin dflt (R.map Prod.snd)) ↔
      ∃ rmax ∈ R, ∃ rmin ∈ R,
        (∀ r ∈ R, r.2 ≤ rmax.2) ∧ (∀ r ∈ R, rmin.2 ≤ r.2) ∧ P rmax.2 rmin.2 := by
  have hmapne : R.map Prod.snd ≠ [] := by simpa using hR
  constructor
  · intro hd
    obtain ⟨rmax, hrmax, hrmaxeq⟩ := List.mem_map.1 (pyMax_mem dflt _ hmapne)
    obtain ⟨rmin, hrmin, hrmineq⟩ := List.mem_map.1 (pyMin_mem dflt _ hmapne)
    refine ⟨rmax, hrmax, rmin, hrmin, ?_, ?_, ?_⟩
    · intro r hr
      rw [hrmaxeq]
      exact le_pyMax dflt _ _ (List.mem_map_of_mem _ hr)
    · intro r hr
      rw [hrmineq]
      exact pyMin_le dflt _ _ (List.mem_map_of_mem _ hr)
    · rw [hrmaxeq, hrmineq]
      exact hd
  · rintro ⟨rmax, hrmax, rmin, hrmin, hub, hlb, hd⟩
    have hmax : pyMax dflt (R.map Prod.snd) = rmax.2 :=
      pyMax_eq_of_ub dflt (List.mem_map_of_mem _ hrmax)
        (fun y hy => by
          obtain ⟨r, hr, rfl⟩ := List.mem_map.1 hy
          exact hub r hr)
    have hmin : pyMin dflt (R.map Prod.snd) = rmin.2 :=
      pyMin_eq_of_lb dflt (List.mem_map_of_mem _ hrmin)
        (fun y hy => by
          obtain ⟨r, hr, rfl⟩ := List.mem_map.1 hy
          exact hlb r hr)
    rw [hmax, hmin]
    exact hd

/-- Head of `Series.mode()` on a non-empty series: a most frequent value,
and the smallest such value in sort order. -/
theorem pandasMode_spec (ys : List String) (h : ys ≠ []) :
    ∃ f rest, pandasMode ys = f :: rest ∧ f ∈ ys ∧
      (∀ v ∈ ys, ys.count v ≤ ys.count f) ∧
      (∀ v ∈ ys, ys.count v = ys.count f → f ≤ v) := by
  have hvne : uniqueList ys ≠ [] := uniqueList_ne_nil h
  have hmapne : (uniqueList ys).map (fun w => ys.count w) ≠ [] := by
    simpa using hvne
  rcases List.mem_map.1 (pyMax_mem 0 _ hmapne) with ⟨v0, hv0, hv0c⟩
  have hfilter : v0 ∈ (uniqueList ys).filter
      (fun v => ys.count v == pyMax 0 ((uniqueList ys).map (fun w => ys.count w))) :=
    List.mem_filter.2 ⟨hv0, by simp [hv0c]⟩
  have hv0mode : v0 ∈ pandasMode ys :=
    (List.perm_insertionSort _ _).mem_iff.2 hfilter
  obtain ⟨f, rest, hfr⟩ := List.exists_cons_of_ne_nil (List.ne_nil_of_mem hv0mode)
  have hfmem : f ∈ (uniqueList ys).filter
      (fun v => ys.count v == pyMax 0 ((uniqueList ys).map (fun w => ys.count w))) := by
    have hf : f ∈ pandasMode ys := by
      rw [hfr]
      exact List.mem_cons_self _ _
    exact (List.perm_insertionSort _ _).mem_iff.1 hf
  obtain ⟨hf_vals, hf_cnt⟩ := List.mem_filter.1 hfmem
  have hf_cnt' : ys.count f = pyMax 0 ((uniqueList ys).map (fun w => ys.count w)) := by
    simpa using hf_cnt
  refine ⟨f, rest, hfr, (mem_uniqueList f ys).1 hf_vals, ?_, ?_⟩
  · intro v hv
    have hm : ys.count v ∈ (uniqueList ys).map (fun w => ys.count w) :=
      List.mem_map_of_mem _ ((mem_uniqueList v ys).2 hv)
    rw [hf_cnt']
    exact le_pyMax 0 _ _ hm
  · intro v hv hcnt
    have hvf : v ∈ (uniqueList ys).filter
        (fun w => ys.count w == pyMax 0 ((uniqueList ys).map (fun w => ys.count w))) :=
      List.mem_filter.2 ⟨(mem_uniqueList v ys).2 hv, by simp [hcnt, hf_cnt']⟩
    have hvmode : v ∈ pandasMode ys :=
      (List.perm_insertionSort _ _).mem_iff.2 hvf
    rw [hfr] at hvmode
    rcases List.mem_cons.1 hvmode with rfl | hvrest
    · exact le_refl _
    · have hsorted : (pandasMode ys).Sorted (· ≤ ·) :=
        List.sorted_insertionSort (· ≤ ·) _
      rw [hfr] at hsorted
      exact List.rel_of_sorted_cons hsorted v hvrest

/-! ## Claims -/

/-- C1: for every table and every numeric column, `handle_outliers` with
method `cap` maps `capColumn` over the columns; afterwards every value of a
column lies within the IQR fence `[Q1 - 1.5*IQR, Q3 + 1.5*IQR]` computed from
that column's values before capping, and every column keeps its row count. -/
theorem cap_outliers_bounds (t : List (List ℚ)) :
    handleOutliers "cap" t = t.map capColumn ∧
    (∀ c ∈ t, ∀ v ∈ capColumn c,
      (iqrBounds c).1 ≤ v ∧ v ≤ (iqrBounds c).2) ∧
    (∀ c ∈ t, (capColumn c).length = c.length) := by
  refine ⟨?_, ?_, ?_⟩
  · unfold handleOutliers
    rw [if_pos rfl, if_neg (by decide)]
  · intro c _ v hv
    exact capColumn_mem_bounds hv
  · intro c _
    unfold capColumn
    simp

/-- Witness for C1 at the spec's example column `[20, 21, 22, 23, 1000]`
(there `Q1 = 21`, `Q3 = 23`, and the value `1000` is capped to `26`). -/
theorem cap_outliers_bounds_witness :
    (iqrBounds [20, 21, 22, 23, 1000]).1 ≤ (26 : ℚ) ∧
      (26 : ℚ) ≤ (iqrBounds [20, 21, 22, 23, 1000]).2 := by
  have hmem : (26 : ℚ) ∈ capColumn [20, 21, 22, 23, 1000] := by
    norm_num [capColumn, iqrBounds, quantile, sortColumn, interpAt,
      List.insertionSort, List.orderedInsert,
      show ((3:ℤ)).toNat = 3 from rfl]
  exact (cap_outliers_bounds [[20, 21, 22, 23, 1000]]).2.1
    [20, 21, 22, 23, 1000] (by simp) 26 hmem

/-- C2: for a numeric column whose 25th and 75th percentiles coincide
(`IQR = 0`), outlier detection is well defined, both bounds collapse to `Q1`,
and a value is flagged as an outlier exactly when it differs from `Q1`. -/
theorem iqr_zero_outlier_iff (xs : List ℚ)
    (h : quantile (1/4) xs = quantile (3/4) xs) :
    iqrBounds xs = (quantile (1/4) xs, quantile (1/4) xs) ∧
      ∀ v : ℚ, isOutlier xs v = true ↔ v ≠ quantile (1/4) xs := by
  have hb : iqrBounds xs = (quantile (1/4) xs, quantile (1/4) xs) := by
    unfold iqrBounds
    rw [← h]
    congr 1 <;> ring
  refine ⟨hb, fun v => ?_⟩
  unfold isOutlier
  rw [hb]
  simp only [Bool.or_eq_true, decide_eq_true_eq]
  exact (ne_iff_lt_or_gt).symm

/-- Witness for C2 at the constant column `[5, 5, 5, 5]`. -/
theorem iqr_zero_outlier_iff_witness :
    quantile (1/4) [5, 5, 5, 5] = quantile (3/4) [5, 5, 5, 5] ∧
      (isOutlier [5, 5, 5, 5] 7 = true ↔ (7 : ℚ) ≠ quantile (1/4) [5, 5, 5, 5]) := by
  have h : quantile (1/4) [5, 5, 5, 5] = quantile (3/4) [5, 5, 5, 5] := by
    norm_num [quantile, sortColumn, interpAt, List.insertionSort,
      List.orderedInsert, show ((2:ℤ)).toNat = 2 from rfl]
  exact ⟨h, (iqr_zero_outlier_iff [5, 5, 5, 5] h).2 7⟩

theorem mkMapping_spec (xs : List String) :
    (mkMapping xs).map Prod.fst = uniqueList xs ∧
    ((mkMapping xs).map Prod.fst).Nodup ∧
    (mkMapping xs).map Prod.snd = List.range (uniqueList xs).length ∧
    ∀ x ∈ xs, (List.lookup x (mkMapping xs)).isSome := by
  refine ⟨enumerateFrom_map_fst 0 _, ?_, ?_, ?_⟩
  · rw [mkMapping, enumerateFrom_map_fst]
    exact nodup_uniqueList xs
  · rw [mkMapping, enumerateFrom_map_snd, List.range_eq_range']
  · intro x hx
    exact lookup_enumerateFrom_isSome 0 _ x ((mem_uniqueList x xs).2 hx)

/-- C3: the Encoder's policy on a column is decided by the number `N` of
distinct values. With `N = 2` (binary) and with `3 ≤ N ≤ 10` (label), the
column is replaced by codes via the recorded first-seen mapping, whose keys
are the distinct values in first-seen order without repetition and whose
codes are exactly `0, ..., N-1`, and every column entry has a code.  With
`N > 10`, the column is replaced by exactly `N - 1` indicator columns, each
named `<column>_<value>` for a value of the column, and the original column
is gone. -/
theorem encode_policy (name : String) (xs : List String) :
    ((uniqueList xs).length = 2 →
      encodeColumn name xs =
        .mapped (mkMapping xs) (applyMapping (mkMapping xs) xs) ∧
      (mkMapping xs).map Prod.fst = uniqueList xs ∧
      ((mkMapping xs).map Prod.fst).Nodup ∧
      (mkMapping xs).map Prod.snd = List.range 2 ∧
      ∀ x ∈ xs, (List.lookup x (mkMapping xs)).isSome) ∧
    (3 ≤ (uniqueList xs).length → (uniqueList xs).length ≤ 10 →
      encodeColumn name xs =
        .mapped (mkMapping xs) (applyMapping (mkMapping xs) xs) ∧
      (mkMapping xs).map Prod.fst = uniqueList xs ∧
      ((mkMapping xs).map Prod.fst).Nodup ∧
      (mkMapping xs).map Prod.snd = List.range (uniqueList xs).length ∧
      ∀ x ∈ xs, (List.lookup x (mkMapping xs)).isSome) ∧
    (10 < (uniqueList xs).length →
      ∃ cols, encodeColumn name xs = .oneHot cols ∧
        cols.length = (uniqueList xs).length - 1 ∧
        ∀ c ∈ cols, ∃ v ∈ xs, c.1 = name ++ "_" ++ v) := by
  obtain ⟨hfst, hnd, hsnd, hlk⟩ := mkMapping_spec xs
  refine ⟨fun h2 => ?_, fun h3 h10 => ?_, fun h11 => ?_⟩
  · refine ⟨?_, hfst, hnd, ?_, hlk⟩
    · unfold encodeColumn
      rw [if_pos h2]
    · rw [hsnd, h2]
  · refine ⟨?_, hfst, hnd, hsnd, hlk⟩
    unfold encodeColumn
    rw [if_neg (by omega), if_pos h10]
  · refine ⟨((List.insertionSort (· ≤ ·) (uniqueList xs)).drop 1).map
      (fun v => (name ++ "_" ++ v, xs.map (fun x => if x == v then 1 else 0))),
      ?_, ?_, ?_⟩
    · unfold encodeColumn
      rw [if_neg (by omega), if_neg (by omega)]
    · simp [List.length_insertionSort]
    · intro c hc
      rcases List.mem_map.1 hc with ⟨v, hv, rfl⟩
      refine ⟨v, ?_, rfl⟩
      have hv1 : v ∈ List.insertionSort (· ≤ ·) (uniqueList xs) :=
        List.mem_of_mem_drop hv
      have hv2 : v ∈ uniqueList xs := (List.perm_insertionSort _ _).mem_iff.1 hv1
      exact (mem_uniqueList v xs).1 hv2

/-- Witness for C3, one column per branch: a binary column, a 4-value column
and an 11-value column. -/
theorem encode_policy_witness :
    ((mkMapping ["n", "y", "n"]).map Prod.snd = List.range 2 ∧
      encodeColumn "col" ["n", "y", "n"] =
        .mapped (mkMapping ["n", "y", "n"])
          (applyMapping (mkMapping ["n", "y", "n"]) ["n", "y", "n"])) ∧
    ((mkMapping ["a", "b", "c", "d"]).map Prod.snd =
        List.range (uniqueList ["a", "b", "c", "d"]).length) ∧
    (∃ cols,
      encodeColumn "g" ["a", "b", "c", "d", "e", "f", "g", "h", "i", "j", "k"] =
        .oneHot cols ∧
      cols.length =
        (uniqueList ["a", "b", "c", "d", "e", "f", "g", "h", "i", "j", "k"]).length - 1 ∧
      ∀ c ∈ cols, ∃ v ∈ ["a", "b", "c", "d", "e", "f", "g", "h", "i", "j", "k"],
        c.1 = "g" ++ "_" ++ v) := by
  have h1 := (encode_policy "col" ["n", "y", "n"]).1 (by decide)
  have h2 := (encode_policy "col" ["a", "b", "c", "d"]).2.1 (by decide) (by decide)
  have h3 := (encode_policy "g"
    ["a", "b", "c", "d", "e", "f", "g", "h", "i", "j", "k"]).2.2 (by decide)
  exact ⟨⟨h1.2.2.2.1, h1.1⟩, h2.2.2.2.1, h3⟩

/-- C10: a categorical column with a single distinct value is label encoded
without failing or skipping: its value is mapped to `0`, the column becomes
a constant `0` column, and the single-entry mapping is recorded. -/
theorem encode_single_value (name : String) (xs : List String) (v : String)
    (h : uniqueList xs = [v]) :
    encodeColumn name xs =
      .mapped [(v, 0)] (List.replicate xs.length (some 0)) := by
  have hall : ∀ x ∈ xs, x = v := by
    intro x hx
    have hm := (mem_uniqueList x xs).2 hx
    rw [h] at hm
    simpa using hm
  have hmap : mkMapping xs = [(v, 0)] := by
    rw [mkMapping, h]
    rfl
  have hlen : (uniqueList xs).length = 1 := by rw [h]; rfl
  unfold encodeColumn
  rw [hlen]
  norm_num
  rw [hmap]
  constructor
  · rfl
  · unfold applyMapping
    apply List.eq_replicate_iff.2
    refine ⟨by simp, ?_⟩
    intro b hb
    rcases List.mem_map.1 hb with ⟨x, hx, rfl⟩
    rw [hall x hx]
    simp [List.lookup]

/-- Witness for C10 at the constant column `["u", "u"]`. -/
theorem encode_single_value_witness :
    encodeColumn "col" ["u", "u"] =
      .mapped [("u", 0)] (List.replicate (["u", "u"] : List String).length (some 0)) :=
  encode_single_value "col" ["u", "u"] "u" (by decide)

/-- C5: the code does not flag an explicit error on an all-missing column.
The numeric branch fills with the median of an empty series (`NaN`), silently
leaving the column all-missing; the categorical branch indexes the empty
`mode()` result, an uncaught `KeyError` (modelled `none`), not a flagged
per-column error. -/
theorem impute_all_missing_behavior :
    imputeNumericColumn [none, none] = [none, none] ∧
    imputeCategoricalColumn [none, none] = none :=
  ⟨rfl, rfl⟩

/-- C7: duplicate removal is idempotent, equals keep-first deduplication
(`uniqueList`), is an order-preserving sublist with no duplicate left,
keeps exactly the values of the input, and its length is the input length
minus the number of rows flagged by `duplicated()`. -/
theorem remove_duplicates_spec [DecidableEq α] (rows : List α) :
    removeDuplicates (removeDuplicates rows) = removeDuplicates rows ∧
    removeDuplicates rows = uniqueList rows ∧
    (removeDuplicates rows).Sublist rows ∧
    (removeDuplicates rows).Nodup ∧
    (∀ r, r ∈ removeDuplicates rows ↔ r ∈ rows) ∧
    (removeDuplicates rows).length =
      rows.length - (duplicatedFlags [] rows).count true := by
  have hu : removeDuplicates rows = uniqueList rows := by
    unfold removeDuplicates
    by_cases h0 : (duplicatedFlags [] rows).count true = 0
    · rw [if_pos h0, uniqueList, count_duplicatedFlags_eq_zero [] rows h0]
    · rw [if_neg h0, uniqueList, maskKeep_duplicatedFlags]
  have hid : ∀ l : List α, l.Nodup → removeDuplicates l = l := by
    intro l hl
    unfold removeDuplicates
    have hself : uniqueAux [] l = l := uniqueAux_eq_self [] l hl (by simp)
    have hcount : (duplicatedFlags [] l).count true = 0 := by
      have := length_uniqueAux_add_count [] l
      rw [hself] at this
      omega
    rw [if_pos hcount]
  refine ⟨?_, hu, ?_, ?_, ?_, ?_⟩
  · rw [hu, hid _ (nodup_uniqueList rows)]
  · rw [hu]; exact sublist_uniqueList rows
  · rw [hu]; exact nodup_uniqueList rows
  · intro r; rw [hu]; exact mem_uniqueList r rows
  · rw [hu]
    have := length_uniqueAux_add_count [] rows
    rw [uniqueList]
    omega

/-- Witness for C7 at the concrete row list `[1, 2, 1]`. -/
theorem remove_duplicates_spec_witness :
    removeDuplicates (removeDuplicates [1, 2, 1]) = removeDuplicates [1, 2, 1] ∧
    removeDuplicates [1, 2, 1] = uniqueList [1, 2, 1] ∧
    (removeDuplicates [1, 2, 1]).Sublist [1, 2, 1] ∧
    (removeDuplicates [1, 2, 1]).Nodup ∧
    (∀ r, r ∈ removeDuplicates [1, 2, 1] ↔ r ∈ [1, 2, 1]) ∧
    (removeDuplicates [1, 2, 1]).length =
      [1, 2, 1].length - (duplicatedFlags [] [1, 2, 1]).count true :=
  remove_duplicates_spec [1, 2, 1]

/-- C8: on a table without the `loan_approval_status` column,
`analyze_target_balance` is skipped (nothing stored), but the run does not
complete: the report stage (and bias plotting) raises, modelled by
`runAnalysis` returning `none`. -/
theorem missing_target_run_crashes :
    List.lookup targetColName [("gender", ["Male", "Female"])] = none ∧
    runAnalysis [("gender", ["Male", "Female"])] = none :=
  ⟨rfl, rfl⟩

/-- C9: an unknown method name is not rejected: `handle_outliers` and
`scale_features` silently return the table untransformed (and record no
scaling parameters). -/
theorem unknown_method_no_transform :
    handleOutliers "median" [[1, 2, 3]] = [[1, 2, 3]] ∧
    scaleFeatures (fun _ => 1) "median" [[1, 2, 3]] = ([[1, 2, 3]], []) :=
  ⟨rfl, rfl⟩

/-- C6 counterexample: in the column `['b','b','a','a',NaN]` the values `'b'`
and `'a'` tie at frequency 2 and `'b'` is first-encountered, yet the code
fills the missing entry with `'a'`: `mode()` returns the tied values sorted
ascending and `[0]` takes the smallest, not the first-encountered. -/
theorem impute_mode_counterexample :
    imputeCategoricalColumn [some "b", some "b", some "a", some "a", none] =
      some [some "b", some "b", some "a", some "a", some "a"] ∧
    imputeCategoricalColumn [some "b", some "b", some "a", some "a", none] ≠
      some [some "b", some "b", some "a", some "a", some "b"] := by
  have hmode : pandasMode ["b", "b", "a", "a"] = ["a", "b"] := by
    simp [pandasMode, uniqueList, uniqueAux, pyMax]
    decide
  have hM : imputeCategoricalColumn [some "b", some "b", some "a", some "a", none] =
      some [some "b", some "b", some "a", some "a", some "a"] := by
    unfold imputeCategoricalColumn
    rw [if_pos (by decide)]
    rw [show ([some "b", some "b", some "a", some "a", none] :
        List (Option String)).filterMap id = ["b", "b", "a", "a"] from rfl]
    rw [hmode]
    rfl
  refine ⟨hM, ?_⟩
  rw [hM]
  decide

/-- C6 as amended: for a categorical column with at least one missing and one
non-missing entry, the Imputer fills every missing entry with a most frequent
non-missing value; ties are broken by ascending sort order of the values (the
smallest tied value is used), not by first-encountered order. -/
theorem impute_mode_sorted (xs : List (Option String))
    (h1 : none ∈ xs) (h2 : xs.filterMap id ≠ []) :
    ∃ f, imputeCategoricalColumn xs = some (xs.map (fun x => some (x.getD f))) ∧
      f ∈ xs.filterMap id ∧
      (∀ v ∈ xs.filterMap id,
        (xs.filterMap id).count v ≤ (xs.filterMap id).count f) ∧
      (∀ v ∈ xs.filterMap id,
        (xs.filterMap id).count v = (xs.filterMap id).count f → f ≤ v) := by
  obtain ⟨f, rest, hmode, hf, hmax, hmin⟩ := pandasMode_spec (xs.filterMap id) h2
  refine ⟨f, ?_, hf, hmax, hmin⟩
  unfold imputeCategoricalColumn
  rw [if_pos (List.any_eq_true.2 ⟨none, h1, rfl⟩), hmode]
  simp only [List.head?_cons]
  congr 1
  apply List.map_congr_left
  intro x _
  cases x <;> rfl

/-- Witness for the amended C6 at the column `['b', NaN]`. -/
theorem impute_mode_sorted_witness :
    ∃ f, imputeCategoricalColumn [some "b", none] =
        some (([some "b", none] : List (Option String)).map
          (fun x => some (x.getD f))) ∧
      f ∈ ([some "b", none] : List (Option String)).filterMap id ∧
      (∀ v ∈ ([some "b", none] : List (Option String)).filterMap id,
        (([some "b", none] : List (Option String)).filterMap id).count v ≤
          (([some "b", none] : List (Option String)).filterMap id).count f) ∧
      (∀ v ∈ ([some "b", none] : List (Option String)).filterMap id,
        (([some "b", none] : List (Option String)).filterMap id).count v =
            (([some "b", none] : List (Option String)).filterMap id).count f →
          f ≤ v) :=
  impute_mode_sorted [some "b", none] (by decide) (by decide)

/-- C4: the per-feature bias flag is set exactly when the spread between the
largest and smallest per-category approval rate exceeds 15 percentage
points, and the target imbalance flag is set exactly when the ratio of the
largest to the smallest class count exceeds 1.5. -/
theorem bias_and_imbalance_flags (cat target : List String)
    (hcat : cat ≠ []) (htgt : target ≠ []) :
    (∃ b, analyzeCategoricalBias cat target = some b ∧
      b.approvalRates ≠ [] ∧
      (b.biasDetected = true ↔
        ∃ rmax ∈ b.approvalRates, ∃ rmin ∈ b.approvalRates,
          (∀ r ∈ b.approvalRates, r.2 ≤ rmax.2) ∧
          (∀ r ∈ b.approvalRates, rmin.2 ≤ r.2) ∧
          15 < rmax.2 - rmin.2)) ∧
    ((analyzeTargetBalance target).imbalanced = true ↔
      ∃ cmax ∈ (analyzeTargetBalance target).classCounts,
        ∃ cmin ∈ (analyzeTargetBalance target).classCounts,
          (∀ c ∈ (analyzeTargetBalance target).classCounts, c.2 ≤ cmax.2) ∧
          (∀ c ∈ (analyzeTargetBalance target).classCounts, cmin.2 ≤ c.2) ∧
          3 / 2 < ((cmax.2 : ℚ) / (cmin.2 : ℚ))) := by
  have hRne : approvalRatesOf cat target ≠ [] := by
    have h1 : uniqueList cat ≠ [] := uniqueList_ne_nil hcat
    have h2 : List.insertionSort (· ≤ ·) (uniqueList cat) ≠ [] := by
      intro hnil
      have hlen : (List.insertionSort (· ≤ ·) (uniqueList cat)).length =
          (uniqueList cat).length := List.length_insertionSort _ _
      rw [hnil] at hlen
      exact h1 (List.length_eq_zero.1 hlen.symm)
    unfold approvalRatesOf
    simpa using h2
  have hCne : classCountsOf target ≠ [] := by
    unfold classCountsOf
    simpa using uniqueList_ne_nil htgt
  constructor
  · have heq : analyzeCategoricalBias cat target =
        some ⟨approvalRatesOf cat target,
          pyMax 0 ((approvalRatesOf cat target).map Prod.snd) -
            pyMin 0 ((approvalRatesOf cat target).map Prod.snd),
          decide (pyMax 0 ((approvalRatesOf cat target).map Prod.snd) -
            pyMin 0 ((approvalRatesOf cat target).map Prod.snd) > 15)⟩ := by
      unfold analyzeCategoricalBias
      rw [if_neg (by simp [hcat, htgt])]
    refine ⟨_, heq, hRne, ?_⟩
    rw [show (BiasResult.mk (approvalRatesOf cat target)
        (pyMax 0 ((approvalRatesOf cat target).map Prod.snd) -
          pyMin 0 ((approvalRatesOf cat target).map Prod.snd))
        (decide (pyMax 0 ((approvalRatesOf cat target).map Prod.snd) -
          pyMin 0 ((approvalRatesOf cat target).map Prod.snd) > 15))).biasDetected =
        decide (pyMax 0 ((approvalRatesOf cat target).map Prod.snd) -
          pyMin 0 ((approvalRatesOf cat target).map Prod.snd) > 15) from rfl,
      decide_eq_true_eq]
    exact pyMaxMin_iff 0 (approvalRatesOf cat target) hRne
      (fun x y => 15 < x - y)
  · rw [show (analyzeTargetBalance target).imbalanced =
        decide (((pyMax 0 ((classCountsOf target).map Prod.snd) : ℕ) : ℚ) /
          ((pyMin 0 ((classCountsOf target).map Prod.snd) : ℕ) : ℚ) > 3/2) from rfl,
      decide_eq_true_eq]
    exact pyMaxMin_iff 0 (classCountsOf target) hCne
      (fun x y => 3 / 2 < ((x : ℚ) / (y : ℚ)))

/-- Witness for C4 at a concrete feature and target column. -/
theorem bias_and_imbalance_flags_witness :
    (∃ b, analyzeCategoricalBias ["M", "M", "F"]
        ["Approved", "Rejected", "Approved"] = some b ∧
      b.approvalRates ≠ [] ∧
      (b.biasDetected = true ↔
        ∃ rmax ∈ b.approvalRates, ∃ rmin ∈ b.approvalRates,
          (∀ r ∈ b.approvalRates, r.2 ≤ rmax.2) ∧
          (∀ r ∈ b.approvalRates, rmin.2 ≤ r.2) ∧
          15 < rmax.2 - rmin.2)) ∧
    ((analyzeTargetBalance ["Approved", "Rejected", "Approved"]).imbalanced = true ↔
      ∃ cmax ∈ (analyzeTargetBalance
          ["Approved", "Rejected", "Approved"]).classCounts,
        ∃ cmin ∈ (analyzeTargetBalance
            ["Approved", "Rejected", "Approved"]).classCounts,
          (∀ c ∈ (analyzeTargetBalance
              ["Approved", "Rejected", "Approved"]).classCounts, c.2 ≤ cmax.2) ∧
          (∀ c ∈ (analyzeTargetBalance
              ["Approved", "Rejected", "Approved"]).classCounts, cmin.2 ≤ c.2) ∧
          3 / 2 < ((cmax.2 : ℚ) / (cmin.2 : ℚ))) :=
  bias_and_imbalance_flags ["M", "M", "F"] ["Approved", "Rejected", "Approved"]
    (by decide) (by decide)

end MLCleaning
